import Mathlib

/-!
# Verification of the process-scheduling engine (ossim)

Shallow embedding of the scheduling engine of the `ossim` CPU-scheduler
simulator: the PCB data model, the shared ready-queue operations, and the
four scheduling policies (`fifo_scheduler`, `sjf_scheduler`, `rr_scheduler`,
`mlfq_scheduler`), translated from `scheduler_examples/fifo.c`, the SJF / RR
/ MLFQ scheduler sources, and the admission code in
`scheduler_examples/ossim.c`.

Conventions of the embedding:
* A C queue (`queue_t`) is a `List Pcb` whose head is the list head;
  `enqueue_pcb` appends at the tail, `dequeue_pcb` pops the head, and
  `remove_queue_elem` removes the element at a given position.
* `uint32_t` values are `Nat`s; arithmetic that can wrap in C
  (`ellapsed_time_ms += TICKS_MS`, `current_time_ms - slice_start_ms`)
  goes through `add32` / `sub32`, which reduce modulo `2^32`.
* Freeing a PCB and writing a `DONE` message on its socket is modelled by
  dropping the record from the state and emitting a `Msg` in the returned
  message list.
* `TICKS_MS` comes from a header that is not part of the engine sources;
  the spec only fixes it as "a fixed, configurable duration", so every
  step function takes the tick size `ticksMs` as an explicit parameter.
-/

namespace OsSim

/-- Width of the C `uint32_t` values used for all times. -/
def U32 : Nat := 4294967296

/-- The `uint32_t` addition, wrapping modulo `2^32`. -/
def add32 (a b : Nat) : Nat := (a + b) % U32

/-- The `uint32_t` subtraction `a - b`, wrapping modulo `2^32`
(intended for `a, b < U32`). -/
def sub32 (a b : Nat) : Nat := (a + U32 - b) % U32

/-- Task status values used by the engine (`TASK_COMMAND` marks a
connection-bookkeeping PCB, `TASK_RUNNING` a runnable burst, `TASK_BLOCKED`
an I/O burst).  The header defining the enum is not among the engine
sources; these are the three constants the engine code assigns. -/
inductive Status where
  | TASK_COMMAND
  | TASK_RUNNING
  | TASK_BLOCKED
deriving DecidableEq, Repr

/-- Message request tags exchanged with the applications (from the engine's
uses of `msg.h`): `RUN`/`BLOCK` admissions, `ACK` replies, `DONE`
completions. -/
inductive Request where
  | PROCESS_REQUEST_ACK
  | PROCESS_REQUEST_RUN
  | PROCESS_REQUEST_BLOCK
  | PROCESS_REQUEST_DONE
deriving DecidableEq, Repr

/-- A wire message `msg_t {pid, request, time_ms}`. -/
structure Msg where
  pid : Int
  request : Request
  time_ms : Nat
deriving DecidableEq, Repr

/-- The Process Control Block `pcb_t` (the spec's PCR): process id, socket
handle, requested burst duration, accumulated time, MLFQ priority tier,
slice start timestamp, and status. -/
structure Pcb where
  pid : Int
  sockfd : Nat
  time_ms : Nat
  ellapsed_time_ms : Nat
  priority_level : Nat
  slice_start_ms : Nat
  status : Status
deriving DecidableEq, Repr

/-- The queue operation `enqueue_pcb`: append a PCB at the tail of a queue.  Modelled from the
spec: `queue.c` is not among the engine sources; §4.1 fixes `append(pcr)`
as add-to-tail. -/
def enqueue_pcb (q : List Pcb) (p : Pcb) : List Pcb := q ++ [p]

/-- The queue operation `dequeue_pcb`: remove and return the head of a queue (`none` when
empty).  Modelled from the spec: `queue.c` is not among the engine sources;
§4.1 fixes `popHead()` as remove-from-head-or-signal-empty. -/
def dequeue_pcb (q : List Pcb) : Option Pcb × List Pcb :=
  match q with
  | [] => (none, [])
  | p :: rest => (some p, rest)

/-- The queue operation `remove_queue_elem`: remove the element at position `i` of a queue.
Modelled from the spec: `queue.c` is not among the engine sources; §4.1
fixes `removeElement(ref)` as removal of a specific element, possibly from
the middle. -/
def remove_queue_elem (q : List Pcb) (i : Nat) : List Pcb := q.eraseIdx i

/-- The allocator `new_pcb pid sockfd time_ms`.  Modelled from the spec: the allocator
lives in the queue module, which is not among the engine sources; §3 fixes
a fresh PCR's identity fields from the admission event, and every caller in
`ossim.c` assigns `status`, `ellapsed_time_ms` and the bookkeeping fields
before the PCB is used. -/
def new_pcb (pid : Int) (sockfd : Nat) (time_ms : Nat) : Pcb :=
  { pid := pid, sockfd := sockfd, time_ms := time_ms,
    ellapsed_time_ms := 0, priority_level := 0, slice_start_ms := 0,
    status := Status.TASK_COMMAND }

/-- The `DONE` notification a policy writes when a burst completes
(`{pid, PROCESS_REQUEST_DONE, current_time_ms}`). -/
def doneMsg (pid : Int) (current_time_ms : Nat) : Msg :=
  { pid := pid, request := Request.PROCESS_REQUEST_DONE,
    time_ms := current_time_ms }

/-- Age the PCB occupying the CPU by one tick:
`ellapsed_time_ms += TICKS_MS` (uint32). -/
def agePcb (ticksMs : Nat) (p : Pcb) : Pcb :=
  { p with ellapsed_time_ms := add32 p.ellapsed_time_ms ticksMs }

/-! ## FIFO (`scheduler_examples/fifo.c`, `fifo_scheduler`) -/

/-- Block 1 of `fifo_scheduler`: if a PCB occupies the CPU, age it; when
`ellapsed_time_ms >= time_ms`, write `DONE`, free the PCB and clear the
slot. -/
def fifo_update (ticksMs current_time_ms : Nat) (cpu_task : Option Pcb) :
    Option Pcb × List Msg :=
  match cpu_task with
  | none => (none, [])
  | some t =>
    let t := agePcb ticksMs t
    if t.time_ms ≤ t.ellapsed_time_ms then
      (none, [doneMsg t.pid current_time_ms])
    else
      (some t, [])

/-- The function `fifo_scheduler(current_time_ms, rq, cpu_task)`: block 1 (aging and
completion), then, if the CPU is free, `*cpu_task = dequeue_pcb(rq)`.
Returns the updated ready queue, CPU slot, and emitted messages. -/
def fifo_scheduler (ticksMs current_time_ms : Nat) (rq : List Pcb)
    (cpu_task : Option Pcb) : List Pcb × Option Pcb × List Msg :=
  match fifo_update ticksMs current_time_ms cpu_task with
  | (some t, msgs) => (rq, some t, msgs)
  | (none, msgs) =>
    let (next, rq) := dequeue_pcb rq
    (rq, next, msgs)

/-! ## SJF (`sjf_scheduler`) -/

/-- The SJF selection scan: walk the queue keeping the index of the current
minimum, replacing it only on strictly smaller `time_ms` (so the first of
equal minima wins).  `sjf_scan rest m mi i` scans `rest`, where `m` is the
current minimum PCB, `mi` its index, and `i` the index of the next element. -/
def sjf_scan : List Pcb → Pcb → Nat → Nat → Nat
  | [], _, mi, _ => mi
  | q :: rest, m, mi, i =>
    if q.time_ms < m.time_ms then sjf_scan rest q i (i + 1)
    else sjf_scan rest m mi (i + 1)

/-- Index of the PCB `sjf_scheduler` selects from a non-empty ready queue:
the first element attaining the minimal `time_ms`. -/
def sjf_select (p : Pcb) (rest : List Pcb) : Nat := sjf_scan rest p 0 1

/-- The function `sjf_scheduler(current_time_ms, rq, cpu_task)` with the file-static
`first_dispatch_done` flag made an explicit state component.  Block 1 ages
and completes as in FIFO; then, if the flag is unset and
`current_time_ms < 200`, the function returns early (warm-up); otherwise,
if the CPU is free and the queue non-empty, the scan selects the shortest
job, removes it from the queue (possibly mid-queue) and dispatches it,
setting the flag. -/
def sjf_scheduler (ticksMs current_time_ms : Nat) (rq : List Pcb)
    (cpu_task : Option Pcb) (first_dispatch_done : Bool) :
    List Pcb × Option Pcb × Bool × List Msg :=
  let (cpu_task, msgs) := fifo_update ticksMs current_time_ms cpu_task
  if first_dispatch_done = false ∧ current_time_ms < 200 then
    (rq, cpu_task, first_dispatch_done, msgs)
  else
    match cpu_task with
    | some t => (rq, some t, first_dispatch_done, msgs)
    | none =>
      match rq with
      | [] => (rq, none, first_dispatch_done, msgs)
      | p :: rest =>
        let i := sjf_select p rest
        match (p :: rest)[i]? with
        | none => (rq, none, first_dispatch_done, msgs)
        | some m => (remove_queue_elem (p :: rest) i, some m, true, msgs)

/-! ## Round-Robin (`rr_scheduler`) -/

/-- The RR/MLFQ quantum `TIME_SLICE` (500 ms simulated). -/
def TIME_SLICE : Nat := 500

/-- Block 1 of `rr_scheduler`: age the running PCB; on completion write
`DONE` and free it; otherwise, when `current_time_ms - slice_start_ms >=
TIME_SLICE`: with an empty ready queue, restart the slice of the same PCB;
with a non-empty queue, append it to the tail and vacate the slot. -/
def rr_update (ticksMs current_time_ms : Nat) (rq : List Pcb)
    (cpu_task : Option Pcb) : List Pcb × Option Pcb × List Msg :=
  match cpu_task with
  | none => (rq, none, [])
  | some t =>
    let t := agePcb ticksMs t
    if t.time_ms ≤ t.ellapsed_time_ms then
      (rq, none, [doneMsg t.pid current_time_ms])
    else if TIME_SLICE ≤ sub32 current_time_ms t.slice_start_ms then
      if rq = [] then
        (rq, some { t with slice_start_ms := current_time_ms }, [])
      else
        (enqueue_pcb rq t, none, [])
    else
      (rq, some t, [])

/-- Block 2 of `rr_scheduler`: when the CPU is free, pop the ready-queue
head and record the new slice start. -/
def rr_dispatch (current_time_ms : Nat) (rq : List Pcb) :
    List Pcb × Option Pcb :=
  match rq with
  | [] => ([], none)
  | p :: rest => (rest, some { p with slice_start_ms := current_time_ms })

/-- The function `rr_scheduler(current_time_ms, rq, cpu_task)`: block 1 then, if the CPU
is free, block 2. -/
def rr_scheduler (ticksMs current_time_ms : Nat) (rq : List Pcb)
    (cpu_task : Option Pcb) : List Pcb × Option Pcb × List Msg :=
  match rr_update ticksMs current_time_ms rq cpu_task with
  | (rq, some t, msgs) => (rq, some t, msgs)
  | (rq, none, msgs) =>
    let (rq, next) := rr_dispatch current_time_ms rq
    (rq, next, msgs)

/-! ## MLFQ (`mlfq_scheduler`, `enqueue_mlfq`) -/

/-- The constant `NUM_QUEUES`: number of MLFQ priority tiers. -/
def NUM_QUEUES : Nat := 3

/-- The file-static `levels` array of MLFQ: one FIFO queue per priority
tier, tier 0 highest. -/
structure MlfqLevels where
  q0 : List Pcb
  q1 : List Pcb
  q2 : List Pcb
deriving DecidableEq, Repr

/-- The call `enqueue_pcb(&levels[i].queue, p)`: append `p` to the queue of tier
`i`.  An index `≥ NUM_QUEUES` is unreachable in the engine
(`priority_level` is set to 0 at admission and incremented only while
`< NUM_QUEUES - 1`); the total model sends it to the lowest tier. -/
def enqueue_level (lv : MlfqLevels) (i : Nat) (p : Pcb) : MlfqLevels :=
  match i with
  | 0 => { lv with q0 := enqueue_pcb lv.q0 p }
  | 1 => { lv with q1 := enqueue_pcb lv.q1 p }
  | _ => { lv with q2 := enqueue_pcb lv.q2 p }

/-- The function `enqueue_mlfq(pcb)`: reset the PCB to tier 0 with
`ellapsed_time_ms = 0` and `slice_start_ms = 0`, and append it to the
tier-0 queue. -/
def enqueue_mlfq (p : Pcb) (lv : MlfqLevels) : MlfqLevels :=
  let p := { p with priority_level := 0, ellapsed_time_ms := 0,
                    slice_start_ms := 0 }
  { lv with q0 := enqueue_pcb lv.q0 p }

/-- Block 1 of `mlfq_scheduler`: age the running PCB; on completion write
`DONE` and free it; otherwise, when the quantum has expired, demote it one
tier unless already at the lowest tier, append it to its (new) tier's queue
and vacate the slot. -/
def mlfq_update (ticksMs current_time_ms : Nat) (lv : MlfqLevels)
    (cpu_task : Option Pcb) : MlfqLevels × Option Pcb × List Msg :=
  match cpu_task with
  | none => (lv, none, [])
  | some t =>
    let t := agePcb ticksMs t
    if t.time_ms ≤ t.ellapsed_time_ms then
      (lv, none, [doneMsg t.pid current_time_ms])
    else if TIME_SLICE ≤ sub32 current_time_ms t.slice_start_ms then
      let t := if t.priority_level < NUM_QUEUES - 1 then
                 { t with priority_level := t.priority_level + 1 }
               else t
      (enqueue_level lv t.priority_level t, none, [])
    else
      (lv, some t, [])

/-- Block 2 of `mlfq_scheduler`: when the CPU is free, scan tiers in
priority order (0 first) and dequeue the head of the first non-empty tier,
recording the new slice start. -/
def mlfq_dispatch (current_time_ms : Nat) (lv : MlfqLevels) :
    MlfqLevels × Option Pcb :=
  match lv.q0 with
  | p :: rest =>
    ({ lv with q0 := rest }, some { p with slice_start_ms := current_time_ms })
  | [] =>
    match lv.q1 with
    | p :: rest =>
      ({ lv with q1 := rest }, some { p with slice_start_ms := current_time_ms })
    | [] =>
      match lv.q2 with
      | p :: rest =>
        ({ lv with q2 := rest },
         some { p with slice_start_ms := current_time_ms })
      | [] => (lv, none)

/-- The function `mlfq_scheduler(current_time_ms, rq /*unused*/, cpu_task)`: block 1
then, if the CPU is free, block 2. -/
def mlfq_scheduler (ticksMs current_time_ms : Nat) (lv : MlfqLevels)
    (cpu_task : Option Pcb) : MlfqLevels × Option Pcb × List Msg :=
  match mlfq_update ticksMs current_time_ms lv cpu_task with
  | (lv, some t, msgs) => (lv, some t, msgs)
  | (lv, none, msgs) =>
    let (lv, next) := mlfq_dispatch current_time_ms lv
    (lv, next, msgs)

/-! ## Admission (`ossim.c`, `check_new_commands`, RUN branch) -/

/-- The active-scheduler enum of `ossim.c`. -/
inductive SchedulerEn where
  | SCHED_FIFO
  | SCHED_SJF
  | SCHED_RR
  | SCHED_MLFQ
deriving DecidableEq, Repr

/-- The `PROCESS_REQUEST_RUN` branch of `check_new_commands`: create a PCB
for the burst with `status = TASK_RUNNING`, `ellapsed_time_ms = 0` and
`slice_start_ms = 0`, then insert it via `enqueue_mlfq` under MLFQ and via
`enqueue_pcb(ready_q, p)` under every other policy.  Returns the updated
shared ready queue and MLFQ tier queues. -/
def check_new_commands_run (scheduler : SchedulerEn) (pid : Int)
    (sockfd : Nat) (time_ms : Nat) (ready_q : List Pcb) (lv : MlfqLevels) :
    List Pcb × MlfqLevels :=
  let p := { new_pcb pid sockfd time_ms with
             status := Status.TASK_RUNNING, ellapsed_time_ms := 0,
             slice_start_ms := 0 }
  match scheduler with
  | SchedulerEn.SCHED_MLFQ => (ready_q, enqueue_mlfq p lv)
  | _ => (enqueue_pcb ready_q p, lv)

/-! ## Helper definitions for the statements -/

/-- The tier-demotion map of `mlfq_scheduler`: one tier down unless already
at the lowest tier (`NUM_QUEUES - 1`). -/
def demote (i : Nat) : Nat := if i < NUM_QUEUES - 1 then i + 1 else i

/-- Sample PCB: a 1300 ms burst for process 1. -/
def pA : Pcb := ⟨1, 3, 1300, 0, 0, 0, Status.TASK_RUNNING⟩

/-- Sample PCB: a 4000 ms burst for process 2. -/
def pB : Pcb := ⟨2, 4, 4000, 0, 0, 0, Status.TASK_RUNNING⟩

/-! ## Claims about admission and MLFQ bookkeeping -/

/-- C8: under MLFQ, every PCR entering the system (first burst or returning
from I/O) goes through `enqueue_mlfq`, which inserts it at the tail of the
tier-0 queue with `priority_level = 0`, `ellapsed_time_ms = 0` and
`slice_start_ms = 0`, whatever tier or accumulated time it previously had;
the other tier queues are untouched. -/
theorem mlfq_admission_resets_to_tier0 (p : Pcb) (lv : MlfqLevels) :
    enqueue_mlfq p lv =
      { lv with q0 := lv.q0 ++
          [{ p with priority_level := 0, ellapsed_time_ms := 0,
                    slice_start_ms := 0 }] } := rfl

/-- C1: the RUN branch of `check_new_commands` creates a PCR in the runnable
state (`TASK_RUNNING`, the engine's single ready/running status) with zero
accumulated time and zero slice start, and inserts it per the active
policy's admission rule: to tier 0 of the MLFQ queues under MLFQ, appended
to the tail of the shared ready queue under every other policy. -/
theorem run_admission_creates_ready_pcb (s : SchedulerEn) (pid : Int)
    (sockfd time_ms : Nat) (rq : List Pcb) (lv : MlfqLevels) :
    let p : Pcb := { pid := pid, sockfd := sockfd, time_ms := time_ms,
                     ellapsed_time_ms := 0, priority_level := 0,
                     slice_start_ms := 0, status := Status.TASK_RUNNING }
    p.status = Status.TASK_RUNNING ∧ p.ellapsed_time_ms = 0 ∧
    p.slice_start_ms = 0 ∧
    check_new_commands_run s pid sockfd time_ms rq lv =
      (if s = SchedulerEn.SCHED_MLFQ then (rq, { lv with q0 := lv.q0 ++ [p] })
       else (rq ++ [p], lv)) := by
  refine ⟨rfl, rfl, rfl, ?_⟩
  cases s <;> rfl

/-- C6: when the CPU slot is empty, MLFQ scans the tiers in priority order
(tier 0 first) and dispatches the head of the first non-empty tier,
recording the new slice start; in particular a tier-1 or tier-2 PCR is
dispatched only when every higher-priority tier queue is empty, and the
full `mlfq_scheduler` invocation with an empty slot is exactly this
dispatch. -/
theorem mlfq_dispatch_strict_tier_priority (ticksMs now : Nat)
    (lv : MlfqLevels) :
    (∀ p rest, lv.q0 = p :: rest →
      mlfq_dispatch now lv =
        ({ lv with q0 := rest }, some { p with slice_start_ms := now }))
    ∧ (∀ p rest, lv.q0 = [] → lv.q1 = p :: rest →
      mlfq_dispatch now lv =
        ({ lv with q1 := rest }, some { p with slice_start_ms := now }))
    ∧ (∀ p rest, lv.q0 = [] → lv.q1 = [] → lv.q2 = p :: rest →
      mlfq_dispatch now lv =
        ({ lv with q2 := rest }, some { p with slice_start_ms := now }))
    ∧ (lv.q0 = [] → lv.q1 = [] → lv.q2 = [] →
      mlfq_dispatch now lv = (lv, none))
    ∧ (mlfq_scheduler ticksMs now lv none =
        ((mlfq_dispatch now lv).1, (mlfq_dispatch now lv).2, [])) := by
  refine ⟨?_, ?_, ?_, ?_, ?_⟩
  · intro p rest h0
    simp [mlfq_dispatch, h0]
  · intro p rest h0 h1
    simp [mlfq_dispatch, h0, h1]
  · intro p rest h0 h1 h2
    simp [mlfq_dispatch, h0, h1, h2]
  · intro h0 h1 h2
    simp [mlfq_dispatch, h0, h1, h2]
  · rcases h : mlfq_dispatch now lv with ⟨a, b⟩
    simp [mlfq_scheduler, mlfq_update, h]

/-- Witness for `mlfq_dispatch_strict_tier_priority`: with tier 0 empty and
one PCB in tier 1, that PCB is dispatched with its slice start set. -/
theorem mlfq_dispatch_strict_tier_priority_witness :
    mlfq_dispatch 7 { q0 := [], q1 := [new_pcb 1 3 100], q2 := [] } =
      ({ q0 := [], q1 := [], q2 := [] },
       some { new_pcb 1 3 100 with slice_start_ms := 7 }) :=
  (mlfq_dispatch_strict_tier_priority 0 7 _).2.1 (new_pcb 1 3 100) [] rfl rfl

/-- C5: when a running PCR's quantum expires without the burst completing,
MLFQ demotes its `priority_level` by exactly one tier unless it is already
at the lowest tier (the `demote` map), appends the aged PCB to the queue of
the resulting tier, and vacates the slot; iterating the demotion from tier
0, two quantum expiries land at tier 2 and every further expiry keeps it at
tier 2. -/
theorem mlfq_quantum_expiry_demotes_one_tier (ticksMs now : Nat)
    (lv : MlfqLevels) (t : Pcb)
    (hrun : (agePcb ticksMs t).ellapsed_time_ms < t.time_ms)
    (hexp : TIME_SLICE ≤ sub32 now t.slice_start_ms) :
    mlfq_update ticksMs now lv (some t) =
      (enqueue_level lv (demote t.priority_level)
        { agePcb ticksMs t with priority_level := demote t.priority_level },
       none, [])
    ∧ demote 0 = 1 ∧ demote (demote 0) = 2 ∧ ∀ n, demote^[n + 2] 0 = 2 := by
  have h1 : ¬ (t.time_ms ≤ add32 t.ellapsed_time_ms ticksMs) :=
    not_le.mpr hrun
  refine ⟨?_, rfl, rfl, ?_⟩
  · by_cases hp : t.priority_level < NUM_QUEUES - 1 <;>
      · simp [mlfq_update, demote, h1, hexp, hp, agePcb]
  · intro n
    induction n with
    | zero => rfl
    | succ n ih =>
      have : n + 1 + 2 = (n + 2) + 1 := by omega
      rw [this, Function.iterate_succ_apply', ih]
      decide

/-- Witness for `mlfq_quantum_expiry_demotes_one_tier`: a tier-0 PCB with
400 ms of its 1300 ms burst consumed, aged at tick 100 with the quantum
expired, is demoted to tier 1 and requeued there. -/
theorem mlfq_quantum_expiry_demotes_one_tier_witness :
    mlfq_update 100 500 { q0 := [], q1 := [], q2 := [] }
        (some { pA with ellapsed_time_ms := 400 }) =
      (enqueue_level { q0 := [], q1 := [], q2 := [] } (demote 0)
        { agePcb 100 { pA with ellapsed_time_ms := 400 } with
          priority_level := demote 0 }, none, []) :=
  (mlfq_quantum_expiry_demotes_one_tier 100 500 _ _ (by decide) (by decide)).1

/-- C4: under RR, for a running PCR whose burst is not yet complete and
whose quantum has expired: with an empty ready queue the same PCR keeps the
CPU and only its `slice_start_ms` is reset to the current tick; with a
non-empty queue the aged PCR is appended to the queue's tail, the slot is
vacated, and the former queue head is dispatched with its slice start set;
and whenever the slot is empty the ready-queue head is popped into the slot
with `slice_start_ms` set to the current tick. -/
theorem rr_quantum_expiry_rules (ticksMs now : Nat) (rq : List Pcb) (t : Pcb)
    (hrun : (agePcb ticksMs t).ellapsed_time_ms < t.time_ms)
    (hexp : TIME_SLICE ≤ sub32 now t.slice_start_ms) :
    (rq = [] → rr_scheduler ticksMs now rq (some t) =
      ([], some { agePcb ticksMs t with slice_start_ms := now }, []))
    ∧ (∀ p rest, rq = p :: rest →
      rr_scheduler ticksMs now rq (some t) =
        (rest ++ [agePcb ticksMs t], some { p with slice_start_ms := now },
         []))
    ∧ (∀ (p : Pcb) (rest : List Pcb),
      rr_scheduler ticksMs now (p :: rest) none =
        (rest, some { p with slice_start_ms := now }, [])) := by
  have h1 : ¬ ((agePcb ticksMs t).time_ms ≤
      (agePcb ticksMs t).ellapsed_time_ms) := not_le.mpr hrun
  have h2 : TIME_SLICE ≤ sub32 now (agePcb ticksMs t).slice_start_ms := hexp
  refine ⟨?_, ?_, ?_⟩
  · intro h
    subst h
    simp [rr_scheduler, rr_update, h1, h2]
  · intro p rest h
    subst h
    simp [rr_scheduler, rr_update, rr_dispatch, enqueue_pcb, h1, h2]
  · intro p rest
    simp [rr_scheduler, rr_update, rr_dispatch]

/-- Witness for `rr_quantum_expiry_rules`: with an empty ready queue, the
1300 ms PCB whose quantum expired at tick 500 keeps the CPU with its slice
restarted. -/
theorem rr_quantum_expiry_rules_witness :
    rr_scheduler 100 500 [] (some { pA with ellapsed_time_ms := 400 }) =
      ([], some { agePcb 100 { pA with ellapsed_time_ms := 400 } with
                  slice_start_ms := 500 }, []) :=
  (rr_quantum_expiry_rules 100 500 []
    { pA with ellapsed_time_ms := 400 } (by decide) (by decide)).1 rfl

/-! ## SJF selection correctness -/

/-- Invariant-carrying correctness of the SJF scan `sjf_scan rest m mi i`
over a full queue `L`: if `m` is the element at index `mi`, `rest` is the
unscanned suffix starting at `i`, every already-scanned element is `≥ m`,
and every element strictly before `mi` is `> m`, then the returned index
points at an element that is minimal in `L` and strictly below every
earlier element (the first minimum). -/
theorem sjf_scan_spec (rest : List Pcb) :
    ∀ (L : List Pcb) (m : Pcb) (mi i : Nat),
      L[mi]? = some m → rest = L.drop i → mi < i →
      (∀ q ∈ L.take i, m.time_ms ≤ q.time_ms) →
      (∀ j, j < mi → ∀ q, L[j]? = some q → m.time_ms < q.time_ms) →
      ∃ mr, L[sjf_scan rest m mi i]? = some mr ∧
        (∀ q ∈ L, mr.time_ms ≤ q.time_ms) ∧
        (∀ j, j < sjf_scan rest m mi i → ∀ q, L[j]? = some q →
          mr.time_ms < q.time_ms) := by
  induction rest with
  | nil =>
    intro L m mi i hm hdrop hmi htake hlt
    have hlen : L.length ≤ i := List.drop_eq_nil_iff.mp hdrop.symm
    have htakeL : L.take i = L := List.take_of_length_le hlen
    refine ⟨m, hm, ?_, hlt⟩
    intro q hq
    exact htake q (by rw [htakeL]; exact hq)
  | cons q rest ih =>
    intro L m mi i hm hdrop hmi htake hlt
    have hq : L[i]? = some q := by
      have h0 : (L.drop i)[0]? = some q := by rw [← hdrop]; simp
      rw [List.getElem?_drop] at h0
      simpa using h0
    have hrest : rest = L.drop (i + 1) := by
      have h1 : (L.drop i).drop 1 = L.drop (i + 1) := List.drop_drop 1 i L
      rw [← hdrop] at h1
      simpa using h1
    have hperm : L.take (i + 1) = L.take i ++ [q] := by
      rw [List.take_succ, hq]
      rfl
    by_cases hcmp : q.time_ms < m.time_ms
    · have hres := ih L q i (i + 1) hq hrest (by omega) ?_ ?_
      · simpa [sjf_scan, hcmp] using hres
      · intro x hx
        rw [hperm] at hx
        rcases List.mem_append.mp hx with hx | hx
        · exact le_of_lt (lt_of_lt_of_le hcmp (htake x hx))
        · have : x = q := by simpa using hx
          simp [this]
      · intro j hj x hxj
        rcases Nat.lt_or_ge j mi with hjm | hjm
        · exact lt_trans hcmp (hlt j hjm x hxj)
        · have hxmem : x ∈ L.take i := by
            have hx : (L.take i)[j]? = some x := by
              rw [List.getElem?_take]
              simpa [hj] using hxj
            exact List.getElem?_mem hx
          exact lt_of_lt_of_le hcmp (htake x hxmem)
    · have hres := ih L m mi (i + 1) hm hrest (by omega) ?_ hlt
      · simpa [sjf_scan, hcmp] using hres
      · intro x hx
        rw [hperm] at hx
        rcases List.mem_append.mp hx with hx | hx
        · exact htake x hx
        · have : x = q := by simpa using hx
          rw [this]
          exact not_lt.mp hcmp

/-- The index `sjf_select p rest` points at the first element of
`p :: rest` with minimal `time_ms`. -/
theorem sjf_select_spec (p : Pcb) (rest : List Pcb) :
    ∃ m, (p :: rest)[sjf_select p rest]? = some m ∧
      (∀ q ∈ p :: rest, m.time_ms ≤ q.time_ms) ∧
      (∀ j, j < sjf_select p rest → ∀ q, (p :: rest)[j]? = some q →
        m.time_ms < q.time_ms) := by
  refine sjf_scan_spec rest (p :: rest) p 0 1 (by simp) (by simp) (by omega)
    ?_ ?_
  · intro x hx
    have : x = p := by simpa using hx
    simp [this]
  · intro j hj
    omega

/-- When block 1 leaves the CPU free and the warm-up gate is passed, one
`sjf_scheduler` invocation on a non-empty queue removes the selected
element (possibly mid-queue), dispatches it, and sets the
first-dispatch flag. -/
theorem sjf_run_dispatch (ticksMs now : Nat) (p : Pcb) (rest : List Pcb)
    (cpu : Option Pcb) (fdd : Bool) (m : Pcb)
    (hcpu : (fifo_update ticksMs now cpu).1 = none)
    (hgate : ¬ (fdd = false ∧ now < 200))
    (hm : (p :: rest)[sjf_select p rest]? = some m) :
    sjf_scheduler ticksMs now (p :: rest) cpu fdd =
      (remove_queue_elem (p :: rest) (sjf_select p rest), some m, true,
       (fifo_update ticksMs now cpu).2) := by
  rcases hfu : fifo_update ticksMs now cpu with ⟨c, msgs⟩
  have hc : c = none := by rw [hfu] at hcpu; exact hcpu
  subst hc
  simp [sjf_scheduler, hfu, hgate, hm]

/-- C3: under SJF, with the CPU slot empty, a non-empty ready queue and the
warm-up window passed, the policy scans the whole queue, selects the first
element attaining the minimal `requestedDurationMs` (ties favour the
earliest-inserted, since the scan replaces only on strictly smaller
duration), removes it — possibly from mid-queue — and places it in the CPU
slot; with ready durations {300, 100, 500} the 100 ms job is dispatched. -/
theorem sjf_dispatches_shortest_job (ticksMs now : Nat) (p : Pcb)
    (rest : List Pcb) (fdd : Bool) (hgate : fdd = true ∨ 200 ≤ now) :
    (∃ m, (p :: rest)[sjf_select p rest]? = some m ∧
      sjf_scheduler ticksMs now (p :: rest) none fdd =
        (remove_queue_elem (p :: rest) (sjf_select p rest), some m, true,
         []) ∧
      (∀ q ∈ p :: rest, m.time_ms ≤ q.time_ms) ∧
      (∀ j, j < sjf_select p rest → ∀ q, (p :: rest)[j]? = some q →
        m.time_ms < q.time_ms))
    ∧ sjf_scheduler 100 300
        [⟨1, 3, 300, 0, 0, 0, Status.TASK_RUNNING⟩,
         ⟨2, 4, 100, 0, 0, 0, Status.TASK_RUNNING⟩,
         ⟨3, 5, 500, 0, 0, 0, Status.TASK_RUNNING⟩] none true =
      ([⟨1, 3, 300, 0, 0, 0, Status.TASK_RUNNING⟩,
        ⟨3, 5, 500, 0, 0, 0, Status.TASK_RUNNING⟩],
       some ⟨2, 4, 100, 0, 0, 0, Status.TASK_RUNNING⟩, true, []) := by
  obtain ⟨m, hm, hmin, hfirst⟩ := sjf_select_spec p rest
  have hgate' : ¬ (fdd = false ∧ now < 200) := by
    rcases hgate with h | h
    · simp [h]
    · intro hc
      omega
  refine ⟨⟨m, hm, ?_, hmin, hfirst⟩, by decide⟩
  exact sjf_run_dispatch ticksMs now p rest none fdd m rfl hgate' hm

/-- Witness for `sjf_dispatches_shortest_job`: the concrete
{300, 100, 500} ready queue dispatches the 100 ms job. -/
theorem sjf_dispatches_shortest_job_witness :
    sjf_scheduler 100 300
        [⟨1, 3, 300, 0, 0, 0, Status.TASK_RUNNING⟩,
         ⟨2, 4, 100, 0, 0, 0, Status.TASK_RUNNING⟩,
         ⟨3, 5, 500, 0, 0, 0, Status.TASK_RUNNING⟩] none true =
      ([⟨1, 3, 300, 0, 0, 0, Status.TASK_RUNNING⟩,
        ⟨3, 5, 500, 0, 0, 0, Status.TASK_RUNNING⟩],
       some ⟨2, 4, 100, 0, 0, 0, Status.TASK_RUNNING⟩, true, []) :=
  (sjf_dispatches_shortest_job 100 300 pA [] true (Or.inl rfl)).2

/-- C7: under SJF, while the `first_dispatch_done` flag is unset and the
clock is below the 200 ms warm-up threshold, no PCR is moved from the
ready queue to the CPU slot (the queue and the flag are unchanged, only
block 1's aging/completion happens); once the clock reaches 200 ms the
first dispatch proceeds and sets the flag; and with the flag set the
dispatch happens at any clock value, so the delay never applies again. -/
theorem sjf_first_dispatch_warmup (ticksMs now : Nat) (rq : List Pcb)
    (cpu : Option Pcb) :
    (now < 200 → sjf_scheduler ticksMs now rq cpu false =
      (rq, (fifo_update ticksMs now cpu).1, false,
       (fifo_update ticksMs now cpu).2))
    ∧ (∀ p rest, rq = p :: rest → 200 ≤ now →
        (fifo_update ticksMs now cpu).1 = none →
        ∃ m, (p :: rest)[sjf_select p rest]? = some m ∧
          sjf_scheduler ticksMs now rq cpu false =
            (remove_queue_elem rq (sjf_select p rest), some m, true,
             (fifo_update ticksMs now cpu).2))
    ∧ (∀ p rest, rq = p :: rest →
        (fifo_update ticksMs now cpu).1 = none →
        ∃ m, (p :: rest)[sjf_select p rest]? = some m ∧
          sjf_scheduler ticksMs now rq cpu true =
            (remove_queue_elem rq (sjf_select p rest), some m, true,
             (fifo_update ticksMs now cpu).2)) := by
  refine ⟨?_, ?_, ?_⟩
  · intro h200
    rcases hfu : fifo_update ticksMs now cpu with ⟨c, msgs⟩
    simp [sjf_scheduler, hfu, h200]
  · intro p rest hrq h200 hcpu
    subst hrq
    obtain ⟨m, hm, -, -⟩ := sjf_select_spec p rest
    exact ⟨m, hm, sjf_run_dispatch ticksMs now p rest cpu false m hcpu
      (by intro hc; omega) hm⟩
  · intro p rest hrq hcpu
    subst hrq
    obtain ⟨m, hm, -, -⟩ := sjf_select_spec p rest
    exact ⟨m, hm, sjf_run_dispatch ticksMs now p rest cpu true m hcpu
      (by simp) hm⟩

/-- Witness for `sjf_first_dispatch_warmup`: at clock 100 with the flag
unset, a waiting 1300 ms job is not dispatched. -/
theorem sjf_first_dispatch_warmup_witness :
    sjf_scheduler 100 100 [pA] none false = ([pA], none, false, []) :=
  (sjf_first_dispatch_warmup 100 100 [pA] none).1 (by decide)

/-! ## Completion semantics -/

/-- C10: in every policy the running PCR completes exactly on the
invocation where its aged accumulated time (`ellapsed_time_ms + TICKS_MS`)
first satisfies `≥ requestedDurationMs` (the `fifo_update` block is also
SJF's block 1, so the first conjunct covers FIFO and SJF; RR and MLFQ emit
`DONE` iff the same condition holds); and when `requestedDurationMs` is not
a multiple of the tick size, the accumulated time held at the `DONE` write
— the aged value — strictly exceeds `requestedDurationMs`, since the
accumulated time is always a multiple of the tick size. -/
theorem completion_on_first_sufficient_tick (ticksMs now : Nat) (t : Pcb) :
    (fifo_update ticksMs now (some t) =
      (if t.time_ms ≤ (agePcb ticksMs t).ellapsed_time_ms then none
       else some (agePcb ticksMs t),
       if t.time_ms ≤ (agePcb ticksMs t).ellapsed_time_ms then
         [doneMsg t.pid now] else []))
    ∧ (∀ rq, t.time_ms ≤ (agePcb ticksMs t).ellapsed_time_ms →
        rr_update ticksMs now rq (some t) = (rq, none, [doneMsg t.pid now]))
    ∧ (∀ rq, (agePcb ticksMs t).ellapsed_time_ms < t.time_ms →
        (rr_update ticksMs now rq (some t)).2.2 = [])
    ∧ (∀ lv, t.time_ms ≤ (agePcb ticksMs t).ellapsed_time_ms →
        mlfq_update ticksMs now lv (some t) =
          (lv, none, [doneMsg t.pid now]))
    ∧ (∀ lv, (agePcb ticksMs t).ellapsed_time_ms < t.time_ms →
        (mlfq_update ticksMs now lv (some t)).2.2 = [])
    ∧ (t.ellapsed_time_ms % ticksMs = 0 → ¬ (ticksMs ∣ t.time_ms) →
        t.ellapsed_time_ms + ticksMs < U32 →
        t.time_ms ≤ (agePcb ticksMs t).ellapsed_time_ms →
        t.time_ms < (agePcb ticksMs t).ellapsed_time_ms) := by
  refine ⟨?_, ?_, ?_, ?_, ?_, ?_⟩
  · by_cases hc : t.time_ms ≤ add32 t.ellapsed_time_ms ticksMs <;>
      simp [fifo_update, agePcb, hc]
  · intro rq hc
    have hc' : t.time_ms ≤ add32 t.ellapsed_time_ms ticksMs := hc
    simp [rr_update, agePcb, hc']
  · intro rq hc
    have hc' : ¬ (t.time_ms ≤ add32 t.ellapsed_time_ms ticksMs) :=
      not_le.mpr hc
    by_cases hq : TIME_SLICE ≤ sub32 now t.slice_start_ms <;>
      by_cases he : rq = [] <;> simp [rr_update, agePcb, hc', hq, he]
  · intro lv hc
    have hc' : t.time_ms ≤ add32 t.ellapsed_time_ms ticksMs := hc
    simp [mlfq_update, agePcb, hc']
  · intro lv hc
    have hc' : ¬ (t.time_ms ≤ add32 t.ellapsed_time_ms ticksMs) :=
      not_le.mpr hc
    by_cases hq : TIME_SLICE ≤ sub32 now t.slice_start_ms <;>
      simp [mlfq_update, agePcb, hc', hq]
  · intro hmod hdvd hlt hge
    have hadd : (agePcb ticksMs t).ellapsed_time_ms =
        t.ellapsed_time_ms + ticksMs := by
      simp [agePcb, add32, Nat.mod_eq_of_lt hlt]
    rw [hadd] at hge ⊢
    rcases Nat.lt_or_ge t.time_ms (t.ellapsed_time_ms + ticksMs) with h | h
    · exact h
    · have heq : t.time_ms = t.ellapsed_time_ms + ticksMs := le_antisymm hge h
      exfalso
      apply hdvd
      apply Nat.dvd_of_mod_eq_zero
      rw [heq, Nat.add_mod_right, hmod]

/-- Witness for `completion_on_first_sufficient_tick`: with 1200 of 1300 ms
consumed, a 100 ms tick completes the burst under RR and emits `DONE`. -/
theorem completion_on_first_sufficient_tick_witness :
    rr_update 100 2300 [] (some { pA with ellapsed_time_ms := 1200 }) =
      ([], none, [doneMsg 1 2300]) :=
  (completion_on_first_sufficient_tick 100 2300
    { pA with ellapsed_time_ms := 1200 }).2.1 [] (by decide)

/-! ## A concrete Round-Robin run (events trace) -/

/-- Observable scheduling events of a policy invocation: a preemption (the
running PCB is requeued with the given accumulated time) or a completion
(`DONE` written with the given accumulated time). -/
inductive RrEv where
  | preempt (pid : Int) (ellapsed_ms : Nat)
  | done (pid : Int) (ellapsed_ms : Nat)
deriving DecidableEq, Repr

/-- The process id an event belongs to. -/
def rrEvPid : RrEv → Int
  | RrEv.preempt pid _ => pid
  | RrEv.done pid _ => pid

/-- The event one `rr_scheduler` invocation produces for the running PCB,
read off from the branch `rr_update` takes: completion when the aged time
reaches the burst length, preemption when the quantum expired and the
ready queue is non-empty. -/
def rr_observe (ticksMs now : Nat) (rq : List Pcb) (cpu : Option Pcb) :
    List RrEv :=
  match cpu with
  | none => []
  | some t =>
    let e := add32 t.ellapsed_time_ms ticksMs
    if t.time_ms ≤ e then [RrEv.done t.pid e]
    else if TIME_SLICE ≤ sub32 now t.slice_start_ms ∧ rq ≠ [] then
      [RrEv.preempt t.pid e]
    else []

/-- Run `steps` consecutive ticks of the RR policy, mirroring the main
loop's order (invoke the scheduler at `now`, then advance
`now += TICKS_MS`), collecting the event trace, the emitted messages and
the final state. -/
def rr_run : Nat → Nat → Nat → List Pcb → Option Pcb →
    List RrEv × List Msg × (List Pcb × Option Pcb)
  | 0, _, _, rq, cpu => ([], [], (rq, cpu))
  | steps + 1, ticksMs, now, rq, cpu =>
    let evs := rr_observe ticksMs now rq cpu
    let r := rr_scheduler ticksMs now rq cpu
    let rest := rr_run steps ticksMs (now + ticksMs) r.1 r.2.1
    (evs ++ rest.1, r.2.2 ++ rest.2.1, rest.2.2)

/-- C9: under RR (quantum 500, tick 100), the 1300 ms burst of process 1,
sharing the system with the 4000 ms burst of process 2 (so another ready
PCR is present at each of its quantum expiries), is preempted exactly twice
— at accumulated times 500 and 1000 ms, retaining its accumulated time
across preemptions — and completes with accumulated time 1300, emitting one
`DONE`; afterwards no PCB of process 1 remains in the ready queue or the
CPU slot. -/
theorem rr_1300ms_two_preemptions_trace :
    ((rr_run 24 100 0 [pA, pB] none).1.filter (fun e => rrEvPid e == 1) =
      [RrEv.preempt 1 500, RrEv.preempt 1 1000, RrEv.done 1 1300])
    ∧ ((rr_run 24 100 0 [pA, pB] none).2.1.filter (fun m => m.pid == 1) =
      [doneMsg 1 2300])
    ∧ ((rr_run 24 100 0 [pA, pB] none).2.2.1.all
        (fun p => !(p.pid == 1)) = true)
    ∧ ((rr_run 24 100 0 [pA, pB] none).2.2.2.elim true
        (fun p => !(p.pid == 1)) = true) := by
  refine ⟨by decide, by decide, by decide, by decide⟩

/-! ## The elapsed-time invariant -/

/-- The PCBs held by the shared ready queue and the CPU slot. -/
def heldQ (rq : List Pcb) (cpu : Option Pcb) : List Pcb := rq ++ cpu.toList

/-- The PCBs held by the MLFQ tier queues and the CPU slot. -/
def heldL (lv : MlfqLevels) (cpu : Option Pcb) : List Pcb :=
  lv.q0 ++ lv.q1 ++ lv.q2 ++ cpu.toList

/-- Well-formedness of a held PCB: its accumulated time does not exceed its
requested duration, and one more tick cannot overflow `uint32_t`. -/
def wfPcb (ticksMs : Nat) (p : Pcb) : Prop :=
  p.ellapsed_time_ms ≤ p.time_ms ∧ p.time_ms + ticksMs < U32

instance (ticksMs : Nat) (p : Pcb) : Decidable (wfPcb ticksMs p) :=
  inferInstanceAs (Decidable (_ ∧ _))

/-- Relation: `q` is a later snapshot of the PCR `p`: same process id and requested
duration, with accumulated time at least `p`'s. -/
def laterPcb (p q : Pcb) : Prop :=
  q.pid = p.pid ∧ q.time_ms = p.time_ms ∧
  p.ellapsed_time_ms ≤ q.ellapsed_time_ms

theorem laterPcb_refl (p : Pcb) : laterPcb p p := ⟨rfl, rfl, le_rfl⟩

/-- Under well-formedness, aging does not wrap. -/
theorem age_ellapsed_eq (ticksMs : Nat) (p : Pcb) (h : wfPcb ticksMs p) :
    (agePcb ticksMs p).ellapsed_time_ms = p.ellapsed_time_ms + ticksMs := by
  have hlt : p.ellapsed_time_ms + ticksMs < U32 :=
    lt_of_le_of_lt (Nat.add_le_add_right h.1 ticksMs) h.2
  simp [agePcb, add32, Nat.mod_eq_of_lt hlt]

/-- Aging a well-formed PCB yields a later snapshot of it. -/
theorem laterPcb_age (ticksMs : Nat) (p : Pcb) (h : wfPcb ticksMs p) :
    laterPcb p (agePcb ticksMs p) :=
  ⟨rfl, rfl, by rw [age_ellapsed_eq ticksMs p h]; omega⟩

/-- A list is a permutation of its element at index `i` consed onto the
list with index `i` erased. -/
theorem perm_cons_eraseIdx {α : Type _} (l : List α) (i : Nat) (x : α)
    (h : l[i]? = some x) : List.Perm l (x :: l.eraseIdx i) := by
  induction l generalizing i with
  | nil => simp at h
  | cons a t ih =>
    cases i with
    | zero =>
      have ha : a = x := by simpa using h
      subst ha
      exact List.Perm.refl _
    | succ i =>
      have h' : t[i]? = some x := by simpa using h
      exact ((ih i h').cons a).trans (List.Perm.swap x a (t.eraseIdx i))

/-- One FIFO invocation preserves well-formedness of all held PCBs, only
grows accumulated times (each held PCB afterwards is a later snapshot of a
held PCB before), and on completion emits exactly one `DONE` and destroys
the completed PCR (the held process ids afterwards are exactly the ready
queue's). -/
theorem fifo_held_spec (ticksMs now : Nat) (rq : List Pcb)
    (cpu : Option Pcb) (hwf : ∀ p ∈ heldQ rq cpu, wfPcb ticksMs p) :
    (∀ p ∈ heldQ (fifo_scheduler ticksMs now rq cpu).1
        (fifo_scheduler ticksMs now rq cpu).2.1, wfPcb ticksMs p) ∧
    (∀ q ∈ heldQ (fifo_scheduler ticksMs now rq cpu).1
        (fifo_scheduler ticksMs now rq cpu).2.1,
      ∃ p ∈ heldQ rq cpu, laterPcb p q) ∧
    (∀ t, cpu = some t →
      t.time_ms ≤ (agePcb ticksMs t).ellapsed_time_ms →
      (fifo_scheduler ticksMs now rq cpu).2.2 = [doneMsg t.pid now] ∧
      (((heldQ (fifo_scheduler ticksMs now rq cpu).1
          (fifo_scheduler ticksMs now rq cpu).2.1).map Pcb.pid :
        List Int) : Multiset Int) =
        ((rq.map Pcb.pid : List Int) : Multiset Int)) := by
  rcases cpu with - | t
  · rcases rq with - | ⟨p, rest⟩
    · refine ⟨?_, ?_, ?_⟩ <;>
        simp [fifo_scheduler, fifo_update, dequeue_pcb, heldQ]
    · have hres : fifo_scheduler ticksMs now (p :: rest) none =
          (rest, some p, []) := by
        simp [fifo_scheduler, fifo_update, dequeue_pcb]
      refine ⟨?_, ?_, ?_⟩
      · intro x hx
        rw [hres] at hx
        apply hwf
        simp [heldQ] at hx ⊢
        tauto
      · intro x hx
        rw [hres] at hx
        refine ⟨x, ?_, laterPcb_refl x⟩
        simp [heldQ] at hx ⊢
        tauto
      · intro t' ht'
        exact absurd ht' (by simp)
  · have hwt : wfPcb ticksMs t := hwf t (by simp [heldQ])
    by_cases hdone : t.time_ms ≤ add32 t.ellapsed_time_ms ticksMs
    · rcases rq with - | ⟨p, rest⟩
      · have hres : fifo_scheduler ticksMs now [] (some t) =
            ([], none, [doneMsg t.pid now]) := by
          simp [fifo_scheduler, fifo_update, dequeue_pcb, agePcb, hdone]
        refine ⟨?_, ?_, ?_⟩
        · intro x hx
          rw [hres] at hx
          simp [heldQ] at hx
        · intro x hx
          rw [hres] at hx
          simp [heldQ] at hx
        · intro t' ht' hd
          obtain rfl : t' = t := (Option.some.inj ht').symm
          rw [hres]
          exact ⟨rfl, rfl⟩
      · have hres : fifo_scheduler ticksMs now (p :: rest) (some t) =
            (rest, some p, [doneMsg t.pid now]) := by
          simp [fifo_scheduler, fifo_update, dequeue_pcb, agePcb, hdone]
        refine ⟨?_, ?_, ?_⟩
        · intro x hx
          rw [hres] at hx
          apply hwf
          simp [heldQ] at hx ⊢
          tauto
        · intro x hx
          rw [hres] at hx
          refine ⟨x, ?_, laterPcb_refl x⟩
          simp [heldQ] at hx ⊢
          tauto
        · intro t' ht' hd
          obtain rfl : t' = t := (Option.some.inj ht').symm
          rw [hres]
          refine ⟨rfl, ?_⟩
          refine Multiset.coe_eq_coe.mpr ?_
          show List.Perm ((rest ++ [p]).map Pcb.pid)
            ((p :: rest).map Pcb.pid)
          rw [List.map_append]
          exact List.perm_append_singleton _ _
    · have hres : fifo_scheduler ticksMs now rq (some t) =
          (rq, some (agePcb ticksMs t), []) := by
        simp [fifo_scheduler, fifo_update, agePcb, hdone]
      have hwfa : wfPcb ticksMs (agePcb ticksMs t) :=
        ⟨le_of_lt (not_le.mp hdone), hwt.2⟩
      refine ⟨?_, ?_, ?_⟩
      · intro x hx
        rw [hres] at hx
        simp [heldQ] at hx
        rcases hx with hx | rfl
        · exact hwf x (by simp [heldQ, hx])
        · exact hwfa
      · intro x hx
        rw [hres] at hx
        simp [heldQ] at hx
        rcases hx with hx | rfl
        · exact ⟨x, by simp [heldQ, hx], laterPcb_refl x⟩
        · exact ⟨t, by simp [heldQ], laterPcb_age ticksMs t hwt⟩
      · intro t' ht' hd
        obtain rfl : t' = t := (Option.some.inj ht').symm
        exact absurd hd hdone

/-- One SJF invocation preserves well-formedness, only grows accumulated
times, and on completion emits exactly one `DONE` and destroys the
completed PCR. -/
theorem sjf_held_spec (ticksMs now : Nat) (rq : List Pcb)
    (cpu : Option Pcb) (fdd : Bool)
    (hwf : ∀ p ∈ heldQ rq cpu, wfPcb ticksMs p) :
    (∀ p ∈ heldQ (sjf_scheduler ticksMs now rq cpu fdd).1
        (sjf_scheduler ticksMs now rq cpu fdd).2.1, wfPcb ticksMs p) ∧
    (∀ q ∈ heldQ (sjf_scheduler ticksMs now rq cpu fdd).1
        (sjf_scheduler ticksMs now rq cpu fdd).2.1,
      ∃ p ∈ heldQ rq cpu, laterPcb p q) ∧
    (∀ t, cpu = some t →
      t.time_ms ≤ (agePcb ticksMs t).ellapsed_time_ms →
      (sjf_scheduler ticksMs now rq cpu fdd).2.2.2 = [doneMsg t.pid now] ∧
      (((heldQ (sjf_scheduler ticksMs now rq cpu fdd).1
          (sjf_scheduler ticksMs now rq cpu fdd).2.1).map Pcb.pid :
        List Int) : Multiset Int) =
        ((rq.map Pcb.pid : List Int) : Multiset Int)) := by
  rcases cpu with - | t
  · by_cases hg : fdd = false ∧ now < 200
    · obtain ⟨hf, hn⟩ := hg
      subst hf
      have hres : sjf_scheduler ticksMs now rq none false =
          (rq, none, false, []) := by
        simp [sjf_scheduler, fifo_update, hn]
      refine ⟨?_, ?_, ?_⟩
      · intro x hx
        rw [hres] at hx
        exact hwf x hx
      · intro x hx
        rw [hres] at hx
        exact ⟨x, hx, laterPcb_refl x⟩
      · intro t' ht'
        exact absurd ht' (by simp)
    · rcases rq with - | ⟨p, rest⟩
      · refine ⟨?_, ?_, ?_⟩
        · intro x hx
          simp [sjf_scheduler, fifo_update, hg, heldQ] at hx
        · intro x hx
          simp [sjf_scheduler, fifo_update, hg, heldQ] at hx
        · intro t' ht'
          exact absurd ht' (by simp)
      · rcases hsel : (p :: rest)[sjf_select p rest]? with - | m
        · have hres : sjf_scheduler ticksMs now (p :: rest) none fdd =
              (p :: rest, none, fdd, []) := by
            simp [sjf_scheduler, fifo_update, hg, hsel]
          refine ⟨?_, ?_, ?_⟩
          · intro x hx
            rw [hres] at hx
            exact hwf x hx
          · intro x hx
            rw [hres] at hx
            exact ⟨x, hx, laterPcb_refl x⟩
          · intro t' ht'
            exact absurd ht' (by simp)
        · have hres : sjf_scheduler ticksMs now (p :: rest) none fdd =
              (remove_queue_elem (p :: rest) (sjf_select p rest), some m,
               true, []) := by
            simp [sjf_scheduler, fifo_update, hg, hsel]
          have hmem : ∀ x ∈ heldQ
              (remove_queue_elem (p :: rest) (sjf_select p rest)) (some m),
              x ∈ heldQ (p :: rest) none := by
            intro x hx
            simp [heldQ, remove_queue_elem] at hx ⊢
            rcases hx with hx | rfl
            · have := List.mem_of_mem_eraseIdx hx
              simpa using this
            · have := List.getElem?_mem hsel
              simpa using this
          refine ⟨?_, ?_, ?_⟩
          · intro x hx
            rw [hres] at hx
            exact hwf x (hmem x hx)
          · intro x hx
            rw [hres] at hx
            exact ⟨x, hmem x hx, laterPcb_refl x⟩
          · intro t' ht'
            exact absurd ht' (by simp)
  · have hwt : wfPcb ticksMs t := hwf t (by simp [heldQ])
    by_cases hdone : t.time_ms ≤ add32 t.ellapsed_time_ms ticksMs
    · by_cases hg : fdd = false ∧ now < 200
      · obtain ⟨hf, hn⟩ := hg
        subst hf
        have hres : sjf_scheduler ticksMs now rq (some t) false =
            (rq, none, false, [doneMsg t.pid now]) := by
          simp [sjf_scheduler, fifo_update, agePcb, hdone, hn]
        refine ⟨?_, ?_, ?_⟩
        · intro x hx
          rw [hres] at hx
          simp [heldQ] at hx
          exact hwf x (by simp [heldQ, hx])
        · intro x hx
          rw [hres] at hx
          simp [heldQ] at hx
          exact ⟨x, by simp [heldQ, hx], laterPcb_refl x⟩
        · intro t' ht' hd
          obtain rfl : t' = t := (Option.some.inj ht').symm
          rw [hres]
          refine ⟨rfl, by simp [heldQ]⟩
      · rcases rq with - | ⟨p, rest⟩
        · have hres : sjf_scheduler ticksMs now [] (some t) fdd =
              ([], none, fdd, [doneMsg t.pid now]) := by
            simp [sjf_scheduler, fifo_update, agePcb, hdone, hg]
          refine ⟨?_, ?_, ?_⟩
          · intro x hx
            rw [hres] at hx
            simp [heldQ] at hx
          · intro x hx
            rw [hres] at hx
            simp [heldQ] at hx
          · intro t' ht' hd
            obtain rfl : t' = t := (Option.some.inj ht').symm
            rw [hres]
            exact ⟨rfl, rfl⟩
        · rcases hsel : (p :: rest)[sjf_select p rest]? with - | m
          · have hres : sjf_scheduler ticksMs now (p :: rest) (some t) fdd =
                (p :: rest, none, fdd, [doneMsg t.pid now]) := by
              simp [sjf_scheduler, fifo_update, agePcb, hdone, hg, hsel]
            refine ⟨?_, ?_, ?_⟩
            · intro x hx
              rw [hres] at hx
              simp [heldQ] at hx
              refine hwf x ?_
              simp [heldQ]
              tauto
            · intro x hx
              rw [hres] at hx
              simp [heldQ] at hx
              refine ⟨x, ?_, laterPcb_refl x⟩
              simp [heldQ]
              tauto
            · intro t' ht' hd
              obtain rfl : t' = t := (Option.some.inj ht').symm
              rw [hres]
              refine ⟨rfl, by simp [heldQ]⟩
          · have hres : sjf_scheduler ticksMs now (p :: rest) (some t) fdd =
                (remove_queue_elem (p :: rest) (sjf_select p rest), some m,
                 true, [doneMsg t.pid now]) := by
              simp [sjf_scheduler, fifo_update, agePcb, hdone, hg, hsel]
            have hmem : ∀ x ∈ heldQ
                (remove_queue_elem (p :: rest) (sjf_select p rest)) (some m),
                x ∈ heldQ (p :: rest) (some t) := by
              intro x hx
              simp [heldQ, remove_queue_elem] at hx ⊢
              rcases hx with hx | rfl
              · have := List.mem_of_mem_eraseIdx hx
                simp at this
                tauto
              · have := List.getElem?_mem hsel
                simp at this
                tauto
            refine ⟨?_, ?_, ?_⟩
            · intro x hx
              rw [hres] at hx
              exact hwf x (hmem x hx)
            · intro x hx
              rw [hres] at hx
              exact ⟨x, hmem x hx, laterPcb_refl x⟩
            · intro t' ht' hd
              obtain rfl : t' = t := (Option.some.inj ht').symm
              rw [hres]
              refine ⟨rfl, ?_⟩
              refine Multiset.coe_eq_coe.mpr ?_
              refine List.Perm.map Pcb.pid ?_
              show List.Perm
                ((p :: rest).eraseIdx (sjf_select p rest) ++ [m]) (p :: rest)
              exact (List.perm_append_singleton m _).trans
                (perm_cons_eraseIdx (p :: rest) (sjf_select p rest) m
                  hsel).symm
    · have hres : sjf_scheduler ticksMs now rq (some t) fdd =
          (rq, some (agePcb ticksMs t), fdd, []) := by
        by_cases hg : fdd = false ∧ now < 200
        · obtain ⟨hf, hn⟩ := hg
          subst hf
          simp [sjf_scheduler, fifo_update, agePcb, hdone, hn]
        · simp [sjf_scheduler, fifo_update, agePcb, hdone, hg]
      have hwfa : wfPcb ticksMs (agePcb ticksMs t) :=
        ⟨le_of_lt (not_le.mp hdone), hwt.2⟩
      refine ⟨?_, ?_, ?_⟩
      · intro x hx
        rw [hres] at hx
        simp [heldQ] at hx
        rcases hx with hx | rfl
        · exact hwf x (by simp [heldQ, hx])
        · exact hwfa
      · intro x hx
        rw [hres] at hx
        simp [heldQ] at hx
        rcases hx with hx | rfl
        · exact ⟨x, by simp [heldQ, hx], laterPcb_refl x⟩
        · exact ⟨t, by simp [heldQ], laterPcb_age ticksMs t hwt⟩
      · intro t' ht' hd
        obtain rfl : t' = t := (Option.some.inj ht').symm
        exact absurd hd hdone

/-- One RR invocation preserves well-formedness, only grows accumulated
times, and on completion emits exactly one `DONE` and destroys the
completed PCR. -/
theorem rr_held_spec (ticksMs now : Nat) (rq : List Pcb)
    (cpu : Option Pcb) (hwf : ∀ p ∈ heldQ rq cpu, wfPcb ticksMs p) :
    (∀ p ∈ heldQ (rr_scheduler ticksMs now rq cpu).1
        (rr_scheduler ticksMs now rq cpu).2.1, wfPcb ticksMs p) ∧
    (∀ q ∈ heldQ (rr_scheduler ticksMs now rq cpu).1
        (rr_scheduler ticksMs now rq cpu).2.1,
      ∃ p ∈ heldQ rq cpu, laterPcb p q) ∧
    (∀ t, cpu = some t →
      t.time_ms ≤ (agePcb ticksMs t).ellapsed_time_ms →
      (rr_scheduler ticksMs now rq cpu).2.2 = [doneMsg t.pid now] ∧
      (((heldQ (rr_scheduler ticksMs now rq cpu).1
          (rr_scheduler ticksMs now rq cpu).2.1).map Pcb.pid :
        List Int) : Multiset Int) =
        ((rq.map Pcb.pid : List Int) : Multiset Int)) := by
  rcases cpu with - | t
  · rcases rq with - | ⟨p, rest⟩
    · refine ⟨?_, ?_, ?_⟩
      · intro x hx
        simp [rr_scheduler, rr_update, rr_dispatch, heldQ] at hx
      · intro x hx
        simp [rr_scheduler, rr_update, rr_dispatch, heldQ] at hx
      · intro t' ht'
        exact absurd ht' (by simp)
    · have hres : rr_scheduler ticksMs now (p :: rest) none =
          (rest, some { p with slice_start_ms := now }, []) := by
        simp [rr_scheduler, rr_update, rr_dispatch]
      refine ⟨?_, ?_, ?_⟩
      · intro x hx
        rw [hres] at hx
        simp [heldQ] at hx
        rcases hx with hx | rfl
        · exact hwf x (by simp [heldQ, hx])
        · exact hwf p (by simp [heldQ])
      · intro x hx
        rw [hres] at hx
        simp [heldQ] at hx
        rcases hx with hx | rfl
        · exact ⟨x, by simp [heldQ, hx], laterPcb_refl x⟩
        · exact ⟨p, by simp [heldQ], rfl, rfl, le_rfl⟩
      · intro t' ht'
        exact absurd ht' (by simp)
  · have hwt : wfPcb ticksMs t := hwf t (by simp [heldQ])
    by_cases hdone : t.time_ms ≤ add32 t.ellapsed_time_ms ticksMs
    · rcases rq with - | ⟨p, rest⟩
      · have hres : rr_scheduler ticksMs now [] (some t) =
            ([], none, [doneMsg t.pid now]) := by
          simp [rr_scheduler, rr_update, rr_dispatch, agePcb, hdone]
        refine ⟨?_, ?_, ?_⟩
        · intro x hx
          rw [hres] at hx
          simp [heldQ] at hx
        · intro x hx
          rw [hres] at hx
          simp [heldQ] at hx
        · intro t' ht' hd
          obtain rfl : t' = t := (Option.some.inj ht').symm
          rw [hres]
          exact ⟨rfl, rfl⟩
      · have hres : rr_scheduler ticksMs now (p :: rest) (some t) =
            (rest, some { p with slice_start_ms := now },
             [doneMsg t.pid now]) := by
          simp [rr_scheduler, rr_update, rr_dispatch, agePcb, hdone]
        refine ⟨?_, ?_, ?_⟩
        · intro x hx
          rw [hres] at hx
          simp [heldQ] at hx
          rcases hx with hx | rfl
          · exact hwf x (by simp [heldQ, hx])
          · exact hwf p (by simp [heldQ])
        · intro x hx
          rw [hres] at hx
          simp [heldQ] at hx
          rcases hx with hx | rfl
          · exact ⟨x, by simp [heldQ, hx], laterPcb_refl x⟩
          · exact ⟨p, by simp [heldQ], rfl, rfl, le_rfl⟩
        · intro t' ht' hd
          obtain rfl : t' = t := (Option.some.inj ht').symm
          rw [hres]
          refine ⟨rfl, ?_⟩
          refine Multiset.coe_eq_coe.mpr ?_
          show List.Perm ((rest ++ [{ p with slice_start_ms := now }]).map
            Pcb.pid) ((p :: rest).map Pcb.pid)
          rw [List.map_append]
          exact List.perm_append_singleton _ _
    · by_cases hq : TIME_SLICE ≤ sub32 now t.slice_start_ms
      · rcases rq with - | ⟨p, rest⟩
        · have hres : rr_scheduler ticksMs now [] (some t) =
              ([], some { agePcb ticksMs t with slice_start_ms := now },
               []) := by
            simp [rr_scheduler, rr_update, rr_dispatch, agePcb, hdone, hq]
          have hwfa : wfPcb ticksMs (agePcb ticksMs t) :=
            ⟨le_of_lt (not_le.mp hdone), hwt.2⟩
          refine ⟨?_, ?_, ?_⟩
          · intro x hx
            rw [hres] at hx
            simp [heldQ] at hx
            subst hx
            exact hwfa
          · intro x hx
            rw [hres] at hx
            simp [heldQ] at hx
            subst hx
            exact ⟨t, by simp [heldQ], rfl, rfl,
              (laterPcb_age ticksMs t hwt).2.2⟩
          · intro t' ht' hd
            obtain rfl : t' = t := (Option.some.inj ht').symm
            exact absurd hd hdone
        · have hres : rr_scheduler ticksMs now (p :: rest) (some t) =
              (rest ++ [agePcb ticksMs t],
               some { p with slice_start_ms := now }, []) := by
            simp [rr_scheduler, rr_update, rr_dispatch, enqueue_pcb,
                  agePcb, hdone, hq]
          have hwfa : wfPcb ticksMs (agePcb ticksMs t) :=
            ⟨le_of_lt (not_le.mp hdone), hwt.2⟩
          refine ⟨?_, ?_, ?_⟩
          · intro x hx
            rw [hres] at hx
            simp [heldQ] at hx
            rcases hx with hx | rfl | rfl
            · exact hwf x (by simp [heldQ, hx])
            · exact hwfa
            · exact hwf p (by simp [heldQ])
          · intro x hx
            rw [hres] at hx
            simp [heldQ] at hx
            rcases hx with hx | rfl | rfl
            · exact ⟨x, by simp [heldQ, hx], laterPcb_refl x⟩
            · exact ⟨t, by simp [heldQ], laterPcb_age ticksMs t hwt⟩
            · exact ⟨p, by simp [heldQ], rfl, rfl, le_rfl⟩
          · intro t' ht' hd
            obtain rfl : t' = t := (Option.some.inj ht').symm
            exact absurd hd hdone
      · have hres : rr_scheduler ticksMs now rq (some t) =
            (rq, some (agePcb ticksMs t), []) := by
          simp [rr_scheduler, rr_update, agePcb, hdone, hq]
        have hwfa : wfPcb ticksMs (agePcb ticksMs t) :=
          ⟨le_of_lt (not_le.mp hdone), hwt.2⟩
        refine ⟨?_, ?_, ?_⟩
        · intro x hx
          rw [hres] at hx
          simp [heldQ] at hx
          rcases hx with hx | rfl
          · exact hwf x (by simp [heldQ, hx])
          · exact hwfa
        · intro x hx
          rw [hres] at hx
          simp [heldQ] at hx
          rcases hx with hx | rfl
          · exact ⟨x, by simp [heldQ, hx], laterPcb_refl x⟩
          · exact ⟨t, by simp [heldQ], laterPcb_age ticksMs t hwt⟩
        · intro t' ht' hd
          obtain rfl : t' = t := (Option.some.inj ht').symm
          exact absurd hd hdone

/-- Relation: `q` is the PCR `p` with only bookkeeping fields (tier, slice start)
possibly changed: same process id, requested duration and accumulated
time. -/
def samePcb (p q : Pcb) : Prop :=
  q.pid = p.pid ∧ q.time_ms = p.time_ms ∧
  q.ellapsed_time_ms = p.ellapsed_time_ms

theorem samePcb_refl (p : Pcb) : samePcb p p := ⟨rfl, rfl, rfl⟩

theorem wf_of_samePcb (ticksMs : Nat) (p q : Pcb) (h : samePcb p q)
    (hw : wfPcb ticksMs p) : wfPcb ticksMs q := by
  refine ⟨?_, ?_⟩
  · rw [h.2.2, h.2.1]
    exact hw.1
  · rw [h.2.1]
    exact hw.2

theorem laterPcb_trans_same (a b c : Pcb) (hab : laterPcb a b)
    (hbc : samePcb b c) : laterPcb a c :=
  ⟨hbc.1.trans hab.1, hbc.2.1.trans hab.2.1,
   hab.2.2.trans (le_of_eq hbc.2.2.symm)⟩

theorem perm_snoc2 {α : Type _} (A B : List α) (x : α) :
    List.Perm (A ++ (B ++ [x])) (x :: (A ++ B)) := by
  have h1 := List.perm_append_singleton x (A ++ B)
  have h2 : (A ++ B) ++ [x] = A ++ (B ++ [x]) := by simp
  rw [h2] at h1
  exact h1

theorem perm_snoc3 {α : Type _} (A B C : List α) (x : α) :
    List.Perm (A ++ (B ++ (C ++ [x]))) (x :: (A ++ (B ++ C))) := by
  have h1 := List.perm_append_singleton x (A ++ (B ++ C))
  have h2 : (A ++ (B ++ C)) ++ [x] = A ++ (B ++ (C ++ [x])) := by simp
  rw [h2] at h1
  exact h1

/-- Every PCB held after an MLFQ dispatch is (up to the refreshed slice
start) a PCB that was held in the tier queues before. -/
theorem mlfq_dispatch_held (now : Nat) (lv : MlfqLevels) :
    ∀ x ∈ heldL (mlfq_dispatch now lv).1 (mlfq_dispatch now lv).2,
      ∃ h ∈ heldL lv none, samePcb h x := by
  intro x hx
  rcases h0 : lv.q0 with - | ⟨p, rest⟩
  · rcases h1 : lv.q1 with - | ⟨p, rest⟩
    · rcases h2 : lv.q2 with - | ⟨p, rest⟩
      · simp [mlfq_dispatch, h0, h1, h2] at hx
        exact ⟨x, hx, samePcb_refl x⟩
      · simp [mlfq_dispatch, h0, h1, h2, heldL] at hx
        rcases hx with hx | rfl
        · exact ⟨x, by simp [heldL, h0, h1, h2]; tauto, samePcb_refl x⟩
        · exact ⟨p, by simp [heldL, h0, h1, h2], rfl, rfl, rfl⟩
    · simp [mlfq_dispatch, h0, h1, heldL] at hx
      rcases hx with hx | hx | rfl
      · exact ⟨x, by simp [heldL, h0, h1]; tauto, samePcb_refl x⟩
      · exact ⟨x, by simp [heldL, h0, h1]; tauto, samePcb_refl x⟩
      · exact ⟨p, by simp [heldL, h0, h1], rfl, rfl, rfl⟩
  · simp [mlfq_dispatch, h0, heldL] at hx
    rcases hx with hx | hx | hx | rfl
    · exact ⟨x, by simp [heldL, h0]; tauto, samePcb_refl x⟩
    · exact ⟨x, by simp [heldL, h0]; tauto, samePcb_refl x⟩
    · exact ⟨x, by simp [heldL, h0]; tauto, samePcb_refl x⟩
    · exact ⟨p, by simp [heldL, h0], rfl, rfl, rfl⟩

/-- Every PCB held after an `enqueue_level` is a previously held PCB or the
enqueued one. -/
theorem enqueue_level_held (lv : MlfqLevels) (i : Nat) (p : Pcb) :
    ∀ x ∈ heldL (enqueue_level lv i p) none, x ∈ heldL lv none ∨ x = p := by
  intro x hx
  rcases i with - | i
  · simp [enqueue_level, enqueue_pcb, heldL] at hx ⊢
    tauto
  · rcases i with - | i <;>
      · simp [enqueue_level, enqueue_pcb, heldL] at hx ⊢
        tauto

/-- An MLFQ dispatch does not change the multiset of held process ids. -/
theorem mlfq_dispatch_pids (now : Nat) (lv : MlfqLevels) :
    (((heldL (mlfq_dispatch now lv).1 (mlfq_dispatch now lv).2).map
        Pcb.pid : List Int) : Multiset Int) =
      (((heldL lv none).map Pcb.pid : List Int) : Multiset Int) := by
  rcases h0 : lv.q0 with - | ⟨p, rest⟩
  · rcases h1 : lv.q1 with - | ⟨p, rest⟩
    · rcases h2 : lv.q2 with - | ⟨p, rest⟩
      · have hd : mlfq_dispatch now lv = (lv, none) := by
          simp [mlfq_dispatch, h0, h1, h2]
        rw [hd]
      · have hd : mlfq_dispatch now lv =
            ({ lv with q2 := rest },
             some { p with slice_start_ms := now }) := by
          simp [mlfq_dispatch, h0, h1, h2]
        rw [hd]
        refine Multiset.coe_eq_coe.mpr ?_
        have ha : (heldL { lv with q2 := rest }
            (some { p with slice_start_ms := now })).map Pcb.pid =
            rest.map Pcb.pid ++ [p.pid] := by
          simp [heldL, h0, h1]
        have hb : (heldL lv none).map Pcb.pid = p.pid :: rest.map Pcb.pid := by
          simp [heldL, h0, h1, h2]
        rw [ha, hb]
        exact List.perm_append_singleton _ _
    · have hd : mlfq_dispatch now lv =
          ({ lv with q1 := rest },
           some { p with slice_start_ms := now }) := by
        simp [mlfq_dispatch, h0, h1]
      rw [hd]
      refine Multiset.coe_eq_coe.mpr ?_
      have ha : (heldL { lv with q1 := rest }
          (some { p with slice_start_ms := now })).map Pcb.pid =
          rest.map Pcb.pid ++ (lv.q2.map Pcb.pid ++ [p.pid]) := by
        simp [heldL, h0]
      have hb : (heldL lv none).map Pcb.pid =
          p.pid :: (rest.map Pcb.pid ++ lv.q2.map Pcb.pid) := by
        simp [heldL, h0, h1]
      rw [ha, hb]
      exact perm_snoc2 _ _ _
  · have hd : mlfq_dispatch now lv =
        ({ lv with q0 := rest },
         some { p with slice_start_ms := now }) := by
      simp [mlfq_dispatch, h0]
    rw [hd]
    refine Multiset.coe_eq_coe.mpr ?_
    have ha : (heldL { lv with q0 := rest }
        (some { p with slice_start_ms := now })).map Pcb.pid =
        rest.map Pcb.pid ++ (lv.q1.map Pcb.pid ++
          (lv.q2.map Pcb.pid ++ [p.pid])) := by
      simp [heldL]
    have hb : (heldL lv none).map Pcb.pid =
        p.pid :: (rest.map Pcb.pid ++
          (lv.q1.map Pcb.pid ++ lv.q2.map Pcb.pid)) := by
      simp [heldL, h0]
    rw [ha, hb]
    exact perm_snoc3 _ _ _ _

/-- One MLFQ invocation preserves well-formedness, only grows accumulated
times, and on completion emits exactly one `DONE` and destroys the
completed PCR (the held process ids afterwards are exactly the tier
queues'). -/
theorem mlfq_held_spec (ticksMs now : Nat) (lv : MlfqLevels)
    (cpu : Option Pcb) (hwf : ∀ p ∈ heldL lv cpu, wfPcb ticksMs p) :
    (∀ p ∈ heldL (mlfq_scheduler ticksMs now lv cpu).1
        (mlfq_scheduler ticksMs now lv cpu).2.1, wfPcb ticksMs p) ∧
    (∀ q ∈ heldL (mlfq_scheduler ticksMs now lv cpu).1
        (mlfq_scheduler ticksMs now lv cpu).2.1,
      ∃ p ∈ heldL lv cpu, laterPcb p q) ∧
    (∀ t, cpu = some t →
      t.time_ms ≤ (agePcb ticksMs t).ellapsed_time_ms →
      (mlfq_scheduler ticksMs now lv cpu).2.2 = [doneMsg t.pid now] ∧
      (((heldL (mlfq_scheduler ticksMs now lv cpu).1
          (mlfq_scheduler ticksMs now lv cpu).2.1).map Pcb.pid :
        List Int) : Multiset Int) =
        (((lv.q0 ++ lv.q1 ++ lv.q2).map Pcb.pid : List Int) :
          Multiset Int)) := by
  rcases cpu with - | t
  · rcases hd : mlfq_dispatch now lv with ⟨L, c⟩
    have hres : mlfq_scheduler ticksMs now lv none = (L, c, []) := by
      simp [mlfq_scheduler, mlfq_update, hd]
    refine ⟨?_, ?_, ?_⟩
    · intro x hx
      rw [hres] at hx
      obtain ⟨h, hmem, hsame⟩ := mlfq_dispatch_held now lv x
        (by rw [hd]; exact hx)
      exact wf_of_samePcb ticksMs h x hsame (hwf h hmem)
    · intro x hx
      rw [hres] at hx
      obtain ⟨h, hmem, hsame⟩ := mlfq_dispatch_held now lv x
        (by rw [hd]; exact hx)
      exact ⟨h, hmem, laterPcb_trans_same h h x (laterPcb_refl h) hsame⟩
    · intro t' ht'
      exact absurd ht' (by simp)
  · have hwt : wfPcb ticksMs t := hwf t (by simp [heldL])
    by_cases hdone : t.time_ms ≤ add32 t.ellapsed_time_ms ticksMs
    · have hupd : mlfq_update ticksMs now lv (some t) =
          (lv, none, [doneMsg t.pid now]) := by
        simp [mlfq_update, agePcb, hdone]
      rcases hd : mlfq_dispatch now lv with ⟨L, c⟩
      have hres : mlfq_scheduler ticksMs now lv (some t) =
          (L, c, [doneMsg t.pid now]) := by
        simp [mlfq_scheduler, hupd, hd]
      refine ⟨?_, ?_, ?_⟩
      · intro x hx
        rw [hres] at hx
        obtain ⟨h, hmem, hsame⟩ := mlfq_dispatch_held now lv x
          (by rw [hd]; exact hx)
        refine wf_of_samePcb ticksMs h x hsame (hwf h ?_)
        simp [heldL] at hmem ⊢
        tauto
      · intro x hx
        rw [hres] at hx
        obtain ⟨h, hmem, hsame⟩ := mlfq_dispatch_held now lv x
          (by rw [hd]; exact hx)
        refine ⟨h, ?_, laterPcb_trans_same h h x (laterPcb_refl h) hsame⟩
        simp [heldL] at hmem ⊢
        tauto
      · intro t' ht' hd'
        obtain rfl : t' = t := (Option.some.inj ht').symm
        rw [hres]
        refine ⟨rfl, ?_⟩
        have hp := mlfq_dispatch_pids now lv
        rw [hd] at hp
        rw [hp]
        simp [heldL]
    · by_cases hq : TIME_SLICE ≤ sub32 now t.slice_start_ms
      · have hupd : mlfq_update ticksMs now lv (some t) =
            (enqueue_level lv (demote t.priority_level)
              { agePcb ticksMs t with
                priority_level := demote t.priority_level }, none, []) := by
          have h1 : ¬ (t.time_ms ≤ add32 t.ellapsed_time_ms ticksMs) := hdone
          by_cases hp : t.priority_level < NUM_QUEUES - 1 <;>
            · simp [mlfq_update, demote, h1, hq, hp, agePcb]
        have hwfa : wfPcb ticksMs (agePcb ticksMs t) :=
          ⟨le_of_lt (not_le.mp hdone), hwt.2⟩
        have hsame2 : samePcb (agePcb ticksMs t)
            { agePcb ticksMs t with
              priority_level := demote t.priority_level } := ⟨rfl, rfl, rfl⟩
        rcases hd : mlfq_dispatch now
            (enqueue_level lv (demote t.priority_level)
              { agePcb ticksMs t with
                priority_level := demote t.priority_level }) with ⟨L, c⟩
        have hres : mlfq_scheduler ticksMs now lv (some t) = (L, c, []) := by
          simp [mlfq_scheduler, hupd, hd]
        refine ⟨?_, ?_, ?_⟩
        · intro x hx
          rw [hres] at hx
          obtain ⟨h, hmem, hsame⟩ := mlfq_dispatch_held now _ x
            (by rw [hd]; exact hx)
          rcases enqueue_level_held lv _ _ h hmem with hh | rfl
          · refine wf_of_samePcb ticksMs h x hsame (hwf h ?_)
            simp [heldL] at hh ⊢
            tauto
          · exact wf_of_samePcb ticksMs _ x hsame
              (wf_of_samePcb ticksMs _ _ hsame2 hwfa)
        · intro x hx
          rw [hres] at hx
          obtain ⟨h, hmem, hsame⟩ := mlfq_dispatch_held now _ x
            (by rw [hd]; exact hx)
          rcases enqueue_level_held lv _ _ h hmem with hh | rfl
          · refine ⟨h, ?_, laterPcb_trans_same h h x (laterPcb_refl h)
              hsame⟩
            simp [heldL] at hh ⊢
            tauto
          · refine ⟨t, by simp [heldL], ?_⟩
            exact laterPcb_trans_same t _ x
              (laterPcb_trans_same t _ _ (laterPcb_age ticksMs t hwt)
                hsame2) hsame
        · intro t' ht' hd'
          obtain rfl : t' = t := (Option.some.inj ht').symm
          exact absurd hd' hdone
      · have hres : mlfq_scheduler ticksMs now lv (some t) =
            (lv, some (agePcb ticksMs t), []) := by
          simp [mlfq_scheduler, mlfq_update, agePcb, hdone, hq]
        have hwfa : wfPcb ticksMs (agePcb ticksMs t) :=
          ⟨le_of_lt (not_le.mp hdone), hwt.2⟩
        refine ⟨?_, ?_, ?_⟩
        · intro x hx
          rw [hres] at hx
          simp [heldL] at hx
          rcases hx with hx | hx | hx | rfl
          · exact hwf x (by simp [heldL]; tauto)
          · exact hwf x (by simp [heldL]; tauto)
          · exact hwf x (by simp [heldL]; tauto)
          · exact hwfa
        · intro x hx
          rw [hres] at hx
          simp [heldL] at hx
          rcases hx with hx | hx | hx | rfl
          · exact ⟨x, by simp [heldL]; tauto, laterPcb_refl x⟩
          · exact ⟨x, by simp [heldL]; tauto, laterPcb_refl x⟩
          · exact ⟨x, by simp [heldL]; tauto, laterPcb_refl x⟩
          · exact ⟨t, by simp [heldL], laterPcb_age ticksMs t hwt⟩
        · intro t' ht' hd'
          obtain rfl : t' = t := (Option.some.inj ht').symm
          exact absurd hd' hdone

/-- C2: for each of the four policies, one policy invocation on a state
whose held PCRs (ready queue(s) plus CPU slot) all satisfy
`elapsedMs ≤ requestedDurationMs` (and cannot overflow on one tick) yields
a state whose held PCRs all still satisfy it; every PCR held afterwards is
a later snapshot of a PCR held before (same id and duration, accumulated
time not decreased — so `elapsedMs` is non-decreasing across ticks); and a
running PCR whose aged time reaches `requestedDurationMs` is completed and
destroyed in that same invocation: exactly one `DONE` is emitted and the
held process ids afterwards are exactly those of the queues, without it. -/
theorem policy_invocation_elapsed_invariant (ticksMs now : Nat) :
    (∀ rq cpu, (∀ p ∈ heldQ rq cpu, wfPcb ticksMs p) →
      (∀ p ∈ heldQ (fifo_scheduler ticksMs now rq cpu).1
          (fifo_scheduler ticksMs now rq cpu).2.1, wfPcb ticksMs p) ∧
      (∀ q ∈ heldQ (fifo_scheduler ticksMs now rq cpu).1
          (fifo_scheduler ticksMs now rq cpu).2.1,
        ∃ p ∈ heldQ rq cpu, laterPcb p q) ∧
      (∀ t, cpu = some t →
        t.time_ms ≤ (agePcb ticksMs t).ellapsed_time_ms →
        (fifo_scheduler ticksMs now rq cpu).2.2 = [doneMsg t.pid now] ∧
        (((heldQ (fifo_scheduler ticksMs now rq cpu).1
            (fifo_scheduler ticksMs now rq cpu).2.1).map Pcb.pid :
          List Int) : Multiset Int) =
          ((rq.map Pcb.pid : List Int) : Multiset Int)))
    ∧ (∀ rq cpu fdd, (∀ p ∈ heldQ rq cpu, wfPcb ticksMs p) →
      (∀ p ∈ heldQ (sjf_scheduler ticksMs now rq cpu fdd).1
          (sjf_scheduler ticksMs now rq cpu fdd).2.1, wfPcb ticksMs p) ∧
      (∀ q ∈ heldQ (sjf_scheduler ticksMs now rq cpu fdd).1
          (sjf_scheduler ticksMs now rq cpu fdd).2.1,
        ∃ p ∈ heldQ rq cpu, laterPcb p q) ∧
      (∀ t, cpu = some t →
        t.time_ms ≤ (agePcb ticksMs t).ellapsed_time_ms →
        (sjf_scheduler ticksMs now rq cpu fdd).2.2.2 =
          [doneMsg t.pid now] ∧
        (((heldQ (sjf_scheduler ticksMs now rq cpu fdd).1
            (sjf_scheduler ticksMs now rq cpu fdd).2.1).map Pcb.pid :
          List Int) : Multiset Int) =
          ((rq.map Pcb.pid : List Int) : Multiset Int)))
    ∧ (∀ rq cpu, (∀ p ∈ heldQ rq cpu, wfPcb ticksMs p) →
      (∀ p ∈ heldQ (rr_scheduler ticksMs now rq cpu).1
          (rr_scheduler ticksMs now rq cpu).2.1, wfPcb ticksMs p) ∧
      (∀ q ∈ heldQ (rr_scheduler ticksMs now rq cpu).1
          (rr_scheduler ticksMs now rq cpu).2.1,
        ∃ p ∈ heldQ rq cpu, laterPcb p q) ∧
      (∀ t, cpu = some t →
        t.time_ms ≤ (agePcb ticksMs t).ellapsed_time_ms →
        (rr_scheduler ticksMs now rq cpu).2.2 = [doneMsg t.pid now] ∧
        (((heldQ (rr_scheduler ticksMs now rq cpu).1
            (rr_scheduler ticksMs now rq cpu).2.1).map Pcb.pid :
          List Int) : Multiset Int) =
          ((rq.map Pcb.pid : List Int) : Multiset Int)))
    ∧ (∀ lv cpu, (∀ p ∈ heldL lv cpu, wfPcb ticksMs p) →
      (∀ p ∈ heldL (mlfq_scheduler ticksMs now lv cpu).1
          (mlfq_scheduler ticksMs now lv cpu).2.1, wfPcb ticksMs p) ∧
      (∀ q ∈ heldL (mlfq_scheduler ticksMs now lv cpu).1
          (mlfq_scheduler ticksMs now lv cpu).2.1,
        ∃ p ∈ heldL lv cpu, laterPcb p q) ∧
      (∀ t, cpu = some t →
        t.time_ms ≤ (agePcb ticksMs t).ellapsed_time_ms →
        (mlfq_scheduler ticksMs now lv cpu).2.2 = [doneMsg t.pid now] ∧
        (((heldL (mlfq_scheduler ticksMs now lv cpu).1
            (mlfq_scheduler ticksMs now lv cpu).2.1).map Pcb.pid :
          List Int) : Multiset Int) =
          (((lv.q0 ++ lv.q1 ++ lv.q2).map Pcb.pid : List Int) :
            Multiset Int))) :=
  ⟨fun rq cpu h => fifo_held_spec ticksMs now rq cpu h,
   fun rq cpu fdd h => sjf_held_spec ticksMs now rq cpu fdd h,
   fun rq cpu h => rr_held_spec ticksMs now rq cpu h,
   fun lv cpu h => mlfq_held_spec ticksMs now lv cpu h⟩

/-- Witness for `policy_invocation_elapsed_invariant`: a 1300 ms burst with
1200 ms consumed completes on the next FIFO tick, emitting one `DONE`, with
nothing left held. -/
theorem policy_invocation_elapsed_invariant_witness :
    (fifo_scheduler 100 0 []
        (some { pA with ellapsed_time_ms := 1200 })).2.2 =
      [doneMsg 1 0] ∧
    (((heldQ (fifo_scheduler 100 0 []
          (some { pA with ellapsed_time_ms := 1200 })).1
        (fifo_scheduler 100 0 []
          (some { pA with ellapsed_time_ms := 1200 })).2.1).map Pcb.pid :
      List Int) : Multiset Int) =
      ((([] : List Pcb).map Pcb.pid : List Int) : Multiset Int) :=
  ((policy_invocation_elapsed_invariant 100 0).1 []
      (some { pA with ellapsed_time_ms := 1200 }) (by decide)).2.2
    { pA with ellapsed_time_ms := 1200 } rfl (by decide)

end OsSim
